import Mathlib

/- Verification of the clog log-template learner.

The definitions below are a shallow embedding of the Rust implementation:
the LogFilters structure and its methods come from src/src/clog.rs, and the
Old namespace embeds the earlier copy of the matcher in src/clog.rs.
Modelling conventions:
  - HashMap of String to Vec u32 is modelled as an association list with
    unique keys; its semantics is given by hashLookup / hashInsert.
  - u32 and usize values are modelled as Nat, i32 sentinel values as Int
    with -1 for "not found".
  - Vec sort (a stable ascending sort) is modelled by List.insertionSort
    with the ≤ ordering; both produce the unique ascending reordering of
    the list, so the choice of sorting algorithm is immaterial.
  - char::is_numeric is true exactly on the Unicode number categories Nd,
    Nl and No; it is modelled by charIsNumeric, an explicit table of the
    codepoint ranges of those categories (Unicode 14.0 data, matching the
    tables generated into the Rust standard library).
  - index loops of the form "for i in start..len" over a vector are
    modelled as structural scans over the dropped suffix, carrying the
    absolute base index. -/

/-- Association-list model of HashMap get. -/
def hashLookup : List (String × List Nat) → String → Option (List Nat)
  | [], _ => none
  | (k, v) :: t, w => if k = w then some v else hashLookup t w

/-- Association-list model of HashMap insert-or-replace; keeps keys unique. -/
def hashInsert : List (String × List Nat) → String → List Nat → List (String × List Nat)
  | [], w, v => [(w, v)]
  | (k, u) :: t, w, v => if k = w then (w, v) :: t else (k, u) :: hashInsert t w v

/-- The LogFilters state from src/src/clog.rs: the template store, the
inverted word index, and the two configuration constants. -/
structure LogFilters where
  filters : List (List (List String))
  words_hash : List (String × List Nat)
  min_req_consequent_matches : Nat
  max_allowed_new_alternatives : Nat

/-- LogFilters::new with the constructor constants 3 and 1. -/
def LogFilters.new : LogFilters :=
  { filters := [], words_hash := [],
    min_req_consequent_matches := 3, max_allowed_new_alternatives := 1 }

/-- The separator predicate of the split closure in learn_line. -/
def isSeparatorChar (c : Char) : Bool :=
  c == ' ' || c == '/' || c == ',' || c == '.' || c == ':' || c == '"' ||
  c == '(' || c == ')' || c == '{' || c == '}' || c == '[' || c == ']'

/-- Model of Rust str::split on a character predicate: n separator
occurrences yield n + 1 pieces, empty pieces included. -/
def rustSplit (p : Char → Bool) : List Char → List (List Char)
  | [] => [[]]
  | c :: cs =>
    if p c then
      [] :: rustSplit p cs
    else
      match rustSplit p cs with
      | [] => [[c]]
      | t :: ts => (c :: t) :: ts

/-- The codepoint ranges (inclusive) of the Unicode general categories
Nd, Nl and No: the exact domain on which Rust char::is_numeric returns
true (Unicode 14.0 data). -/
def numericRanges : List (Nat × Nat) :=
  [(48, 57), (178, 179), (185, 185), (188, 190), (1632, 1641), (1776, 1785),
   (1984, 1993), (2406, 2415), (2534, 2543), (2548, 2553), (2662, 2671),
   (2790, 2799), (2918, 2927), (2930, 2935), (3046, 3058), (3174, 3183),
   (3192, 3198), (3302, 3311), (3416, 3422), (3430, 3448), (3558, 3567),
   (3664, 3673), (3792, 3801), (3872, 3891), (4160, 4169), (4240, 4249),
   (4969, 4988), (5870, 5872), (6112, 6121), (6128, 6137), (6160, 6169),
   (6470, 6479), (6608, 6618), (6784, 6793), (6800, 6809), (6992, 7001),
   (7088, 7097), (7232, 7241), (7248, 7257), (8304, 8304), (8308, 8313),
   (8320, 8329), (8528, 8578), (8581, 8585), (9312, 9371), (9450, 9471),
   (10102, 10131), (11517, 11517), (12295, 12295), (12321, 12329),
   (12344, 12346), (12690, 12693), (12832, 12841), (12872, 12879),
   (12881, 12895), (12928, 12937), (12977, 12991), (42528, 42537),
   (42726, 42735), (43056, 43061), (43216, 43225), (43264, 43273),
   (43472, 43481), (43504, 43513), (43600, 43609), (44016, 44025),
   (65296, 65305), (65799, 65843), (65856, 65912), (65930, 65931),
   (66273, 66299), (66336, 66339), (66369, 66369), (66378, 66378),
   (66513, 66517), (66720, 66729), (67672, 67679), (67705, 67711),
   (67751, 67759), (67835, 67839), (67862, 67867), (68028, 68029),
   (68032, 68047), (68050, 68095), (68160, 68168), (68221, 68222),
   (68253, 68255), (68331, 68335), (68440, 68447), (68472, 68479),
   (68521, 68527), (68858, 68863), (68912, 68921), (69216, 69246),
   (69405, 69414), (69457, 69460), (69573, 69579), (69714, 69743),
   (69872, 69881), (69942, 69951), (70096, 70105), (70113, 70132),
   (70384, 70393), (70736, 70745), (70864, 70873), (71248, 71257),
   (71360, 71369), (71472, 71483), (71904, 71922), (72016, 72025),
   (72784, 72812), (73040, 73049), (73120, 73129), (73664, 73684),
   (74752, 74862), (92768, 92777), (92864, 92873), (93008, 93017),
   (93019, 93025), (93824, 93846), (119520, 119539), (119648, 119672),
   (120782, 120831), (123200, 123209), (123632, 123641), (125127, 125135),
   (125264, 125273), (126065, 126123), (126125, 126127), (126129, 126132),
   (126209, 126253), (126255, 126269), (127232, 127244), (130032, 130041)]

/-- Model of Rust char::is_numeric: membership of the codepoint in the
Nd, Nl and No category ranges. -/
def charIsNumeric (c : Char) : Bool :=
  numericRanges.any (fun r => decide (r.1 ≤ c.toNat ∧ c.toNat ≤ r.2))

/-- Source: _is_word_only_numeric (the unused self receiver is dropped).
The source maps char::is_numeric over the word and checks that false does
not occur. -/
def _is_word_only_numeric (word : String) : Bool :=
  !((word.data.map (fun c => charIsNumeric c)).contains false)

namespace LogFilters

/-- Source: the inner index loop of _get_word_index_in_filter, scanning
slots from a base index upward for the first one containing the word. -/
def slotSearch (word : String) : List (List String) → Nat → Int
  | [], _ => -1
  | word_alternatives :: rest, base =>
    if word_alternatives.contains word then (base : Int)
    else slotSearch word rest (base + 1)

/-- Source: _get_word_index_in_filter. -/
def _get_word_index_in_filter (lf : LogFilters) (word : String) (filter_index : Nat)
    (start_from_word : Nat) : Int :=
  if word.length = 0 then -1
  else
    match lf.filters[filter_index]? with
    | none => -1
    | some filter =>
      if filter.length = 0 ∨ filter.length - 1 < start_from_word then -1
      else slotSearch word (filter.drop start_from_word) start_from_word

/-- Source: the word loop of _count_consequent_matches, carrying
last_matching_index, consequent_matches, max_consequent_matches and
new_alternatives; returns 0 as soon as new_alternatives exceeds the
allowed total. -/
def countLoop (lf : LogFilters) (filter_index : Nat) (allowed : Nat) :
    List String → Int → Nat → Nat → Nat → Nat
  | [], _, _, maxCm, _ => maxCm
  | word :: rest, last, cm, maxCm, na =>
    let mi := lf._get_word_index_in_filter word filter_index (last + 1).toNat
    if 0 ≤ mi ∧ last < mi then
      countLoop lf filter_index allowed rest mi (cm + 1)
        (if maxCm < cm + 1 then cm + 1 else maxCm) na
    else
      if allowed < na + 1 then 0
      else countLoop lf filter_index allowed rest last cm maxCm (na + 1)

/-- Source: _count_consequent_matches. -/
def _count_consequent_matches (lf : LogFilters) (words : List String) (filter_index : Nat) : Nat :=
  if lf.filters.length ≤ filter_index ∨ words.length = 0 then 0
  else
    let filter_length := (lf.filters[filter_index]?.getD []).length
    let extra := if filter_length < words.length then words.length - filter_length else 0
    countLoop lf filter_index (lf.max_allowed_new_alternatives + extra) words (-1) 0 0 0

/-- Source: _update_hash.  The or_insert default is the singleton of the
filter index; a missing index is pushed and the entry re-sorted. -/
def _update_hash (lf : LogFilters) (word : String) (filter_index : Nat) : LogFilters :=
  let v := (hashLookup lf.words_hash word).getD [filter_index]
  let v1 := if v.contains filter_index then v
    else List.insertionSort (· ≤ ·) (v ++ [filter_index])
  { lf with words_hash := hashInsert lf.words_hash word v1 }

/-- Source: _get_sorted_filter_indexes_containing_words. -/
def _get_sorted_filter_indexes_containing_words (lf : LogFilters) (words : List String) :
    List Nat :=
  List.insertionSort (· ≤ ·)
    (words.foldl (fun acc word =>
      match hashLookup lf.words_hash word with
      | some vector_indexes => acc ++ vector_indexes
      | none => acc) [])

/-- Source: the index loop of _get_filter_indexes_with_min_req_matches,
carrying the running match count, prev_index and last_inserted_index. -/
def shortlistLoop (threshold : Nat) : List Nat → Nat → Int → Int → List Nat
  | [], _, _, _ => []
  | filter_index :: rest, match_count, prev_index, last_inserted =>
    if last_inserted = (filter_index : Int) then
      shortlistLoop threshold rest match_count prev_index last_inserted
    else
      let m := if prev_index ≠ (filter_index : Int) then 1 else match_count + 1
      if threshold ≤ m then
        filter_index :: shortlistLoop threshold rest 0 ((filter_index : Int)) ((filter_index : Int))
      else
        shortlistLoop threshold rest m ((filter_index : Int)) last_inserted

/-- Source: _get_filter_indexes_with_min_req_matches.  The u32 threshold
subtraction cannot underflow for the constructor constants; it is modelled
by truncated Nat subtraction. -/
def _get_filter_indexes_with_min_req_matches (lf : LogFilters) (words : List String) :
    List Nat :=
  let extra :=
    if words.length < lf.min_req_consequent_matches then
      lf.min_req_consequent_matches - words.length
    else 0
  shortlistLoop (lf.min_req_consequent_matches - lf.max_allowed_new_alternatives - extra)
    (lf._get_sorted_filter_indexes_containing_words words) 0 (-1) (-1)

/-- Source: the candidate loop of _find_best_matching_filter_index,
tracking the best index and the maximal score; a later candidate replaces
the best only with a strictly greater score. -/
def bestLoop (lf : LogFilters) (words : List String) : List Nat → Int → Nat → Int × Nat
  | [], best, maxc => (best, maxc)
  | filter_index :: rest, best, maxc =>
    let c := lf._count_consequent_matches words filter_index
    if maxc < c then bestLoop lf words rest ((filter_index : Int)) c
    else bestLoop lf words rest best maxc

/-- Source: _find_best_matching_filter_index (src/src/clog.rs version). -/
def _find_best_matching_filter_index (lf : LogFilters) (words : List String) : Int :=
  if lf.filters.length = 0 ∨ words.length = 0 then -1
  else
    let bm := bestLoop lf words (lf._get_filter_indexes_with_min_req_matches words) (-1) 0
    if lf.min_req_consequent_matches < words.length then
      if lf.min_req_consequent_matches ≤ bm.2 then bm.1 else -1
    else
      if words.length = bm.2 then bm.1 else -1

/-- Source: the word loop of _get_first_matching_indexes. -/
def firstMatchLoop (lf : LogFilters) (filter_index : Nat) : List String → Nat → Int × Int
  | [], _ => (-1, -1)
  | word :: rest, word_index =>
    let m := lf._get_word_index_in_filter word filter_index 0
    if 0 ≤ m then ((word_index : Int), m)
    else firstMatchLoop lf filter_index rest (word_index + 1)

/-- Source: _get_first_matching_indexes. -/
def _get_first_matching_indexes (lf : LogFilters) (words : List String) (filter_index : Nat) :
    Int × Int :=
  if words.length = 0 ∨ lf.filters[filter_index]?.isNone then (-1, -1)
  else firstMatchLoop lf filter_index words 0

/-- Source: _normalise_till_first_match.  The source interleaves, per
leading word, the hash registration and the construction of the singleton
slot; since _update_hash never touches the filters, this is modelled as
the hash fold followed by the splice-at-front of the mapped slots.  The
none branch of the match models the unreachable case in which the unwrap
of the filter would panic; it cannot occur because a nonnegative first
slot index implies the filter exists. -/
def _normalise_till_first_match (lf : LogFilters) (words : List String) (filter_index : Nat) :
    LogFilters :=
  let p := lf._get_first_matching_indexes words filter_index
  if 0 ≤ p.1 ∧ 0 ≤ p.2 then
    if 0 < p.1 - p.2 then
      let front := words.take (p.1 - p.2).toNat
      let lf1 := front.foldl (fun acc word => acc._update_hash word filter_index) lf
      match lf1.filters[filter_index]? with
      | some filter =>
        { lf1 with
          filters := lf1.filters.set filter_index
            ((front.map (fun word => [word])) ++ filter) }
      | none => lf1
    else lf
  else lf

/-- Source: _update_filter; the trailing for loop over words has an empty
body and does nothing. -/
def _update_filter (lf : LogFilters) (words : List String) (filter_index : Nat) : LogFilters :=
  lf._normalise_till_first_match words filter_index

/-- Source: _add_filter.  The source interleaves, per nonempty word, the
hash registration and the construction of the singleton slot; this is
modelled as the hash fold followed by the mapped push. -/
def _add_filter (lf : LogFilters) (words : List String) : LogFilters :=
  let expected_index := lf.filters.length
  let kept := words.filter (fun word => decide (0 < word.length))
  let lf1 := kept.foldl (fun acc word => acc._update_hash word expected_index) lf
  let words_alternatives := kept.map (fun word => [word])
  if 0 < words_alternatives.length then
    { lf1 with filters := lf1.filters ++ [words_alternatives] }
  else lf1

/-- Source: _is_word_in_filter. -/
def _is_word_in_filter (lf : LogFilters) (word : String) (filter_index : Nat) : Bool :=
  match lf.filters[filter_index]? with
  | none => false
  | some filter => filter.any (fun word_alternatives => word_alternatives.contains word)

end LogFilters

/-- Source: the tokenization performed at the top of learn_line: split on
the separator set, keep only nonempty, not-only-numeric words. -/
def tokenize (log_line : String) : List String :=
  ((rustSplit isSeparatorChar log_line.data).map (fun cs => String.mk cs)).filter
    (fun word => decide (0 < word.length) && !_is_word_only_numeric word)

/-- Source: learn_line. -/
def LogFilters.learn_line (lf : LogFilters) (log_line : String) : LogFilters :=
  let words := tokenize log_line
  let matched_filter_index := lf._find_best_matching_filter_index words
  if 0 ≤ matched_filter_index then lf._update_filter words matched_filter_index.toNat
  else lf._add_filter words

namespace Old

/-- The LogFilters state of the earlier copy in src/clog.rs: no
max_allowed_new_alternatives field. -/
structure LogFilters where
  line_filters : List (List (List String))
  words_hash : List (String × List Nat)
  min_req_consequent_matches : Nat

/-- Source: _is_word_in_line_filter (src/clog.rs). -/
def LogFilters._is_word_in_line_filter (lf : LogFilters) (word : String)
    (filter_index : Nat) : Bool :=
  match lf.line_filters[filter_index]? with
  | none => false
  | some line_filter =>
    line_filter.any (fun word_alternatives => word_alternatives.contains word)

/-- Source: the word loop of _count_consequent_matches_in_line_filter
(src/clog.rs): the consequent counter resets on a mismatch and the maximum
is only updated at a mismatch. -/
def scoreLoop (lf : LogFilters) (filter_index : Nat) : List String → Nat → Nat → Nat
  | [], _, maxCm => maxCm
  | word :: rest, cm, maxCm =>
    if lf._is_word_in_line_filter word filter_index then
      scoreLoop lf filter_index rest (cm + 1) maxCm
    else
      scoreLoop lf filter_index rest 0 (if maxCm < cm then cm else maxCm)

/-- Source: _count_consequent_matches_in_line_filter (src/clog.rs). -/
def LogFilters._count_consequent_matches_in_line_filter (lf : LogFilters)
    (words : List String) (filter_index : Nat) : Nat :=
  scoreLoop lf filter_index words 0 0

/-- Source: _get_sorted_line_filter_indexes_with_words (src/clog.rs). -/
def LogFilters._get_sorted_line_filter_indexes_with_words (lf : LogFilters)
    (words : List String) : List Nat :=
  List.insertionSort (· ≤ ·)
    (words.foldl (fun acc word =>
      match hashLookup lf.words_hash word with
      | some vector_indexes => acc ++ vector_indexes
      | none => acc) [])

/-- Source: the index loop of _get_line_filter_indexes_with_min_req_matches
(src/clog.rs): on a first occurrence of an index the loop sets the count to
1 and continues without the threshold test. -/
def shortlistLoop (minReq : Nat) : List Nat → Nat → Int → Int → List Nat
  | [], _, _, _ => []
  | filter_index :: rest, match_count, prev_index, last_inserted =>
    if last_inserted = (filter_index : Int) then
      shortlistLoop minReq rest match_count prev_index last_inserted
    else
      if prev_index ≠ (filter_index : Int) then
        shortlistLoop minReq rest 1 ((filter_index : Int)) last_inserted
      else
        if match_count + 1 = minReq then
          filter_index ::
            shortlistLoop minReq rest 0 ((filter_index : Int)) ((filter_index : Int))
        else
          shortlistLoop minReq rest (match_count + 1) ((filter_index : Int)) last_inserted

/-- Source: _get_line_filter_indexes_with_min_req_matches (src/clog.rs). -/
def LogFilters._get_line_filter_indexes_with_min_req_matches (lf : LogFilters)
    (words : List String) : List Nat :=
  shortlistLoop lf.min_req_consequent_matches
    (lf._get_sorted_line_filter_indexes_with_words words) 0 (-1) (-1)

/-- Source: the candidate loop of _find_best_matching_filter_index
(src/clog.rs). -/
def bestLoop (lf : LogFilters) (words : List String) : List Nat → Int → Nat → Int × Nat
  | [], best, maxc => (best, maxc)
  | filter_index :: rest, best, maxc =>
    let c := lf._count_consequent_matches_in_line_filter words filter_index
    if maxc < c then bestLoop lf words rest ((filter_index : Int)) c
    else bestLoop lf words rest best maxc

/-- Source: _find_best_matching_filter_index (src/clog.rs): no empty-words
guard, and acceptance requires the maximum to strictly exceed
min_req_consequent_matches. -/
def LogFilters._find_best_matching_filter_index (lf : LogFilters)
    (words : List String) : Int :=
  if lf.line_filters.length = 0 then -1
  else
    let bm := bestLoop lf words (lf._get_line_filter_indexes_with_min_req_matches words) (-1) 0
    if lf.min_req_consequent_matches < bm.2 then bm.1 else -1

end Old

/-- Spec 4.3 slot-search primitive for the claim-level scorer: index of
the first slot at or after the base whose alternative set contains the
token. -/
def firstSlotAux (word : String) : List (List String) → Nat → Option Nat
  | [], _ => none
  | word_alternatives :: rest, base =>
    if word_alternatives.contains word then some base
    else firstSlotAux word rest (base + 1)

/-- Spec 4.3: first slot at or after start containing the token; none for
an empty token. -/
def specSlotFrom (filter : List (List String)) (word : String) (start : Nat) : Option Nat :=
  if word.length = 0 then none else firstSlotAux word (filter.drop start) start

/-- Claim C1 scorer, written from the spec sentences: scan tokens left to
right, matching each to the first slot strictly after the last matched
slot; count matched tokens, never resetting the count; return 0 as soon
as the number of mismatched tokens exceeds the tolerance. -/
def specAlignScore (filter : List (List String)) (tol : Nat) :
    List String → Nat → Nat → Nat → Nat
  | [], _, matched, _ => matched
  | word :: rest, start, matched, mismatched =>
    match specSlotFrom filter word start with
    | some k => specAlignScore filter tol rest (k + 1) (matched + 1) mismatched
    | none =>
      if tol < mismatched + 1 then 0
      else specAlignScore filter tol rest start matched (mismatched + 1)

/-- Claim C5 separator set, written from the spec sentence. -/
def specIsSeparator (c : Char) : Bool :=
  c == ' ' || c == '/' || c == ',' || c == '.' || c == ':' || c == '"' ||
  c == '(' || c == ')' || c == '{' || c == '}' || c == '[' || c == ']'

/-- Claim C5 all-numeric test, written from the spec sentence: every
character is a decimal digit; the empty string counts as all-numeric. -/
def specAllNumeric (word : String) : Bool :=
  word.data.all (fun c => c.isDigit)

/-- Claim C5 tokenizer, written from the spec sentences: split at each
separator occurrence, drop empty substrings, drop all-numeric
substrings. -/
def specTokenize (log_line : String) : List String :=
  ((rustSplit specIsSeparator log_line.data).map (fun cs => String.mk cs)).filter
    (fun word => decide (word.length ≠ 0) && !specAllNumeric word)

/-- Amended C5 all-numeric test: every character of the word is
Unicode-numeric in the sense of char::is_numeric; the empty string counts
as all-numeric. -/
def specNumericAll (word : String) : Bool :=
  word.data.all (fun c => charIsNumeric c)

/-- Amended C5 tokenizer: split at each separator occurrence, drop empty
substrings, drop substrings consisting entirely of Unicode-numeric
characters. -/
def specTokenizeNumeric (log_line : String) : List String :=
  ((rustSplit specIsSeparator log_line.data).map (fun cs => String.mk cs)).filter
    (fun word => decide (word.length ≠ 0) && !specNumericAll word)

/-- Concrete state with a single four-slot template; used by witnesses. -/
def lfA : LogFilters :=
  { filters := [[["aaa"], ["bbb"], ["ccc"], ["ddd"]]],
    words_hash := [("aaa", [0]), ("bbb", [0]), ("ccc", [0]), ("ddd", [0])],
    min_req_consequent_matches := 3, max_allowed_new_alternatives := 1 }

/-- Concrete state with a single one-slot template; used by witnesses. -/
def lfB : LogFilters :=
  { filters := [[["bbb"]]], words_hash := [("bbb", [0])],
    min_req_consequent_matches := 3, max_allowed_new_alternatives := 1 }

/-- The old-version state with the same template store, word index and
min_req_consequent_matches as lfA; used by the C10 counterexample. -/
def oldA : Old.LogFilters :=
  { line_filters := [[["aaa"], ["bbb"], ["ccc"], ["ddd"]]],
    words_hash := [("aaa", [0]), ("bbb", [0]), ("ccc", [0]), ("ddd", [0])],
    min_req_consequent_matches := 3 }

/-- Membership of a template id in the word-index entry of a token. -/
def hashHasIndex (h : List (String × List Nat)) (word : String) (id : Nat) : Bool :=
  match hashLookup h word with
  | some v => v.contains id
  | none => false

/-- Claim C4 invariant: the word index is the exact inverse of the
template store token membership. -/
def indexConsistent (lf : LogFilters) : Prop :=
  ∀ word id, hashHasIndex lf.words_hash word id = lf._is_word_in_filter word id

theorem hashLookup_hashInsert_self (h : List (String × List Nat)) (w : String)
    (v : List Nat) : hashLookup (hashInsert h w v) w = some v := by
  induction h with
  | nil => simp [hashInsert, hashLookup]
  | cons p t ih =>
    obtain ⟨k, u⟩ := p
    by_cases hk : k = w
    · simp [hashInsert, hashLookup, hk]
    · simp [hashInsert, hashLookup, hk, ih]

theorem hashLookup_hashInsert_ne (h : List (String × List Nat)) (w w1 : String)
    (v : List Nat) (hne : w1 ≠ w) :
    hashLookup (hashInsert h w v) w1 = hashLookup h w1 := by
  have hne1 : ¬ w = w1 := fun hh => hne hh.symm
  induction h with
  | nil => simp [hashInsert, hashLookup, hne1]
  | cons p t ih =>
    obtain ⟨k, u⟩ := p
    by_cases hk : k = w
    · subst hk
      simp [hashInsert, hashLookup, hne1]
    · simp [hashInsert, hashLookup, hk, ih]

theorem hashInsert_self_of_lookup (h : List (String × List Nat)) (w : String)
    (v : List Nat) (hl : hashLookup h w = some v) : hashInsert h w v = h := by
  induction h with
  | nil => simp [hashLookup] at hl
  | cons p t ih =>
    obtain ⟨k, u⟩ := p
    by_cases hk : k = w
    · subst hk
      simp [hashLookup] at hl
      simp [hashInsert, hl]
    · simp only [hashLookup, if_neg hk] at hl
      simp [hashInsert, hk, ih hl]

theorem update_hash_filters (lf : LogFilters) (word : String) (filter_index : Nat) :
    (lf._update_hash word filter_index).filters = lf.filters := rfl

theorem foldl_update_hash_filters (ws : List String) (filter_index : Nat) :
    ∀ lf : LogFilters,
      (ws.foldl (fun acc word => acc._update_hash word filter_index) lf).filters =
        lf.filters := by
  induction ws with
  | nil => intro lf; rfl
  | cons w rest ih => intro lf; rw [List.foldl_cons, ih, update_hash_filters]

/-- Claim C8: an out-of-range template id is treated as not found by every
lookup operation: the slot-search primitive returns -1, the alignment
scorer returns 0, and the direct membership test returns false. -/
theorem out_of_range_id_not_found (lf : LogFilters) (filter_index : Nat)
    (h : lf.filters.length ≤ filter_index) :
    (∀ word start_from_word,
      lf._get_word_index_in_filter word filter_index start_from_word = -1) ∧
    (∀ words, lf._count_consequent_matches words filter_index = 0) ∧
    (∀ word, lf._is_word_in_filter word filter_index = false) := by
  have hn : lf.filters[filter_index]? = none := List.getElem?_eq_none h
  refine ⟨fun word s => ?_, fun words => ?_, fun word => ?_⟩
  · simp [LogFilters._get_word_index_in_filter, hn]
  · simp [LogFilters._count_consequent_matches, h]
  · simp [LogFilters._is_word_in_filter, hn]

/-- Witness for C8: the empty store with template id 0. -/
theorem out_of_range_id_not_found_witness :
    LogFilters.new._get_word_index_in_filter "aaa" 0 0 = -1 ∧
    LogFilters.new._count_consequent_matches ["aaa"] 0 = 0 ∧
    LogFilters.new._is_word_in_filter "aaa" 0 = false :=
  ⟨(out_of_range_id_not_found LogFilters.new 0 (by decide)).1 "aaa" 0,
   (out_of_range_id_not_found LogFilters.new 0 (by decide)).2.1 ["aaa"],
   (out_of_range_id_not_found LogFilters.new 0 (by decide)).2.2 "aaa"⟩

/-- Claim C9: a line whose surviving token list is empty leaves the whole
state unchanged: no template is created or modified and the word index
gains no entry. -/
theorem learn_line_empty_tokens_noop (lf : LogFilters) (log_line : String)
    (h : tokenize log_line = []) : lf.learn_line log_line = lf := by
  simp [LogFilters.learn_line, h, LogFilters._find_best_matching_filter_index,
    LogFilters._add_filter]

/-- Witness for C9: a line of purely numeric tokens. -/
theorem learn_line_empty_tokens_noop_witness :
    tokenize "12 34" = [] ∧ LogFilters.new.learn_line "12 34" = LogFilters.new :=
  ⟨by decide, learn_line_empty_tokens_noop LogFilters.new "12 34" (by decide)⟩

theorem lookup_update_hash_self (lf : LogFilters) (word : String) (filter_index : Nat) :
    hashLookup (lf._update_hash word filter_index).words_hash word =
      some (let v := (hashLookup lf.words_hash word).getD [filter_index]
        if v.contains filter_index then v
        else List.insertionSort (· ≤ ·) (v ++ [filter_index])) := by
  simp only [LogFilters._update_hash]
  exact hashLookup_hashInsert_self _ _ _

/-- Claim C7: registering a token-id pair is idempotent: a second
registration leaves the entry unchanged; the first registration of an
unseen token creates the singleton entry; an existing entry gains the id
only if absent and the rebuilt entry is sorted ascending. -/
theorem update_hash_idempotent (lf : LogFilters) (word : String) (filter_index : Nat) :
    ((lf._update_hash word filter_index)._update_hash word filter_index).words_hash =
      (lf._update_hash word filter_index).words_hash ∧
    (hashLookup lf.words_hash word = none →
      hashLookup (lf._update_hash word filter_index).words_hash word =
        some [filter_index]) ∧
    (∀ v, hashLookup lf.words_hash word = some v →
      (filter_index ∈ v →
        hashLookup (lf._update_hash word filter_index).words_hash word = some v) ∧
      (filter_index ∉ v →
        hashLookup (lf._update_hash word filter_index).words_hash word =
          some (List.insertionSort (· ≤ ·) (v ++ [filter_index])) ∧
        List.Sorted (· ≤ ·) (List.insertionSort (· ≤ ·) (v ++ [filter_index])) ∧
        ∀ id, id ∈ List.insertionSort (· ≤ ·) (v ++ [filter_index]) ↔
          id ∈ v ∨ id = filter_index)) := by
  refine ⟨?_, ?_, ?_⟩
  · have hself := lookup_update_hash_self lf word filter_index
    set v1 := (let v := (hashLookup lf.words_hash word).getD [filter_index]
      if v.contains filter_index then v
      else List.insertionSort (· ≤ ·) (v ++ [filter_index])) with hv1
    have hmem : filter_index ∈ v1 := by
      rw [hv1]
      simp only []
      split
      · next hc =>
        set v := (hashLookup lf.words_hash word).getD [filter_index] with hv
        cases ho : hashLookup lf.words_hash word with
        | none => rw [hv, ho]; simp
        | some u =>
          simp only [hv, ho, Option.getD_some] at hc ⊢
          simpa using hc
      · next hc =>
        have : filter_index ∈
            (hashLookup lf.words_hash word).getD [filter_index] ++ [filter_index] := by
          simp
        exact ((List.perm_insertionSort (· ≤ ·) _).mem_iff).mpr this
    conv_lhs => rw [LogFilters._update_hash]
    rw [hself]
    simp only [Option.getD_some]
    rw [if_pos (by simpa using hmem)]
    exact hashInsert_self_of_lookup _ _ _ hself
  · intro hnone
    rw [lookup_update_hash_self]
    simp [hnone]
  · intro v hv
    constructor
    · intro hin
      rw [lookup_update_hash_self]
      simp [hv, hin]
    · intro hout
      refine ⟨?_, List.sorted_insertionSort (· ≤ ·) _, fun id => ?_⟩
      · rw [lookup_update_hash_self]
        have : ¬ v.contains filter_index = true := by simpa using hout
        simp [hv, this]
        exact fun h => absurd h hout
      · rw [(List.perm_insertionSort (· ≤ ·) _).mem_iff]
        simp

/-- Witness for C7: first registration of an unseen token, and a repeated
registration of an already present pair. -/
theorem update_hash_idempotent_witness :
    hashLookup (LogFilters.new._update_hash "aaa" 0).words_hash "aaa" = some [0] ∧
    hashLookup (lfB._update_hash "bbb" 0).words_hash "bbb" = some [0] :=
  ⟨(update_hash_idempotent LogFilters.new "aaa" 0).2.1 (by decide),
   ((update_hash_idempotent lfB "bbb" 0).2.2 [0] (by decide)).1 (by decide)⟩

theorem slotSearch_eq_firstSlotAux (word : String) (l : List (List String)) :
    ∀ base, LogFilters.slotSearch word l base =
      match firstSlotAux word l base with
      | some k => (k : Int)
      | none => -1 := by
  induction l with
  | nil => intro base; simp [LogFilters.slotSearch, firstSlotAux]
  | cons a t ih =>
    intro base
    by_cases hc : word ∈ a
    · simp [LogFilters.slotSearch, firstSlotAux, hc]
    · simp only [LogFilters.slotSearch, firstSlotAux]
      simp [hc, ih]

theorem firstSlotAux_le (word : String) (l : List (List String)) :
    ∀ base k, firstSlotAux word l base = some k → base ≤ k := by
  induction l with
  | nil => intro base k h; simp [firstSlotAux] at h
  | cons a t ih =>
    intro base k h
    by_cases hc : word ∈ a
    · simp [firstSlotAux, hc] at h
      omega
    · simp only [firstSlotAux] at h
      simp [hc] at h
      have := ih (base + 1) k h
      omega

theorem specSlotFrom_le (filter : List (List String)) (word : String) (start k : Nat)
    (h : specSlotFrom filter word start = some k) : start ≤ k := by
  unfold specSlotFrom at h
  by_cases hw : word.length = 0
  · simp [hw] at h
  · rw [if_neg hw] at h
    exact firstSlotAux_le word (filter.drop start) start k h

theorem get_word_index_eq_specSlotFrom (lf : LogFilters) (word : String)
    (filter_index : Nat) (filter : List (List String))
    (hf : lf.filters[filter_index]? = some filter) (start : Nat) :
    lf._get_word_index_in_filter word filter_index start =
      match specSlotFrom filter word start with
      | some k => (k : Int)
      | none => -1 := by
  unfold LogFilters._get_word_index_in_filter specSlotFrom
  rw [hf]
  by_cases hw : word.length = 0
  · simp [hw]
  · rw [if_neg hw, if_neg hw]
    dsimp only
    by_cases hg : filter.length = 0 ∨ filter.length - 1 < start
    · have hd : filter.drop start = [] := by
        rw [List.drop_eq_nil_iff]
        rcases hg with hg | hg <;> omega
      rw [if_pos hg, hd]
      simp [firstSlotAux]
    · rw [if_neg hg]
      exact slotSearch_eq_firstSlotAux word (filter.drop start) start

theorem countLoop_eq_specAlignScore (lf : LogFilters) (filter_index : Nat)
    (filter : List (List String)) (hf : lf.filters[filter_index]? = some filter)
    (allowed : Nat) :
    ∀ (ws : List String) (last : Int), -1 ≤ last → ∀ cm na,
      LogFilters.countLoop lf filter_index allowed ws last cm cm na =
        specAlignScore filter allowed ws (last + 1).toNat cm na := by
  intro ws
  induction ws with
  | nil => intro last hlast cm na; rfl
  | cons w rest ih =>
    intro last hlast cm na
    rw [LogFilters.countLoop, specAlignScore]
    simp only [get_word_index_eq_specSlotFrom lf w filter_index filter hf]
    cases hsp : specSlotFrom filter w (last + 1).toNat with
    | some k =>
      have hk : (last + 1).toNat ≤ k := specSlotFrom_le filter w (last + 1).toNat k hsp
      dsimp only
      rw [if_pos (by omega : (0 : Int) ≤ (k : Int) ∧ last < (k : Int))]
      rw [if_pos (Nat.lt_succ_self cm)]
      rw [ih (k : Int) (by omega) (cm + 1) na]
      have harg : (((k : Int)) + 1).toNat = k + 1 := by omega
      rw [harg]
    | none =>
      dsimp only
      rw [if_neg (by omega : ¬ ((0 : Int) ≤ (-1 : Int) ∧ last < (-1 : Int)))]
      by_cases hab : allowed < na + 1
      · rw [if_pos hab, if_pos hab]
      · rw [if_neg hab, if_neg hab]
        exact ih last hlast cm (na + 1)

/-- Claim C1: the alignment scorer equals the claim-level greedy scorer:
it returns 0 when the template does not exist or the token list is empty,
and otherwise scans tokens left to right, matching each to the first slot
strictly after the last matched slot, never resetting the match count,
returning 0 as soon as the number of mismatched tokens exceeds
max_allowed_new_alternatives plus the length surplus of the input over the
template, and returning the total number of matched tokens otherwise. -/
theorem count_consequent_matches_correct (lf : LogFilters) (words : List String)
    (filter_index : Nat) :
    lf._count_consequent_matches words filter_index =
      match lf.filters[filter_index]? with
      | none => 0
      | some filter =>
        if words.length = 0 then 0
        else specAlignScore filter
          (lf.max_allowed_new_alternatives + (words.length - filter.length))
          words 0 0 0 := by
  by_cases hrange : lf.filters.length ≤ filter_index
  · rw [List.getElem?_eq_none hrange]
    simp [LogFilters._count_consequent_matches, hrange]
  · have hlt : filter_index < lf.filters.length := by omega
    have hf : lf.filters[filter_index]? = some lf.filters[filter_index] :=
      List.getElem?_eq_getElem hlt
    rw [hf]
    dsimp only
    by_cases hw : words.length = 0
    · simp [LogFilters._count_consequent_matches, hw]
    · rw [if_neg hw]
      unfold LogFilters._count_consequent_matches
      rw [if_neg (by omega : ¬ (lf.filters.length ≤ filter_index ∨ words.length = 0))]
      simp only [hf, Option.getD_some]
      have hextra :
          (if lf.filters[filter_index].length < words.length then
            words.length - lf.filters[filter_index].length else 0) =
          words.length - lf.filters[filter_index].length := by
        split <;> omega
      rw [hextra]
      have := countLoop_eq_specAlignScore lf filter_index lf.filters[filter_index] hf
        (lf.max_allowed_new_alternatives + (words.length - lf.filters[filter_index].length))
        words (-1) (by omega) 0 0
      simpa using this

theorem bestLoop_result (lf : LogFilters) (words : List String) :
    ∀ (cands : List Nat) (best : Int) (maxc : Nat),
      (best = -1 ∧ maxc = 0) ∨
        (∃ n : Nat, best = (n : Int) ∧ maxc = lf._count_consequent_matches words n) →
      ((LogFilters.bestLoop lf words cands best maxc).1 = -1 ∧
        (LogFilters.bestLoop lf words cands best maxc).2 = 0) ∨
      (∃ n : Nat, (LogFilters.bestLoop lf words cands best maxc).1 = (n : Int) ∧
        (LogFilters.bestLoop lf words cands best maxc).2 =
          lf._count_consequent_matches words n) := by
  intro cands
  induction cands with
  | nil => intro best maxc h; simpa [LogFilters.bestLoop] using h
  | cons c rest ih =>
    intro best maxc h
    rw [LogFilters.bestLoop]
    split
    · exact ih _ _ (Or.inr ⟨c, rfl, rfl⟩)
    · exact ih _ _ h

/-- Claim C2: the matcher returns no match on an empty store or empty
token list; whenever it returns a template id, the score of that template
is at least min_req_consequent_matches when the input is longer than
min_req_consequent_matches, and exactly the input length otherwise. -/
theorem find_best_matching_filter_index_correct (lf : LogFilters) (words : List String) :
    ((lf.filters.length = 0 ∨ words.length = 0) →
      lf._find_best_matching_filter_index words = -1) ∧
    (∀ i : Nat, lf._find_best_matching_filter_index words = (i : Int) →
      (lf.min_req_consequent_matches < words.length →
        lf.min_req_consequent_matches ≤ lf._count_consequent_matches words i) ∧
      (words.length ≤ lf.min_req_consequent_matches →
        lf._count_consequent_matches words i = words.length)) := by
  constructor
  · intro h
    rw [LogFilters._find_best_matching_filter_index, if_pos h]
  · intro i hi
    by_cases hguard : lf.filters.length = 0 ∨ words.length = 0
    · rw [LogFilters._find_best_matching_filter_index, if_pos hguard] at hi
      omega
    · rw [LogFilters._find_best_matching_filter_index, if_neg hguard] at hi
      have hbm := bestLoop_result lf words
        (lf._get_filter_indexes_with_min_req_matches words) (-1) 0 (Or.inl ⟨rfl, rfl⟩)
      set bm := LogFilters.bestLoop lf words
        (lf._get_filter_indexes_with_min_req_matches words) (-1) 0 with hbmdef
      dsimp only at hi
      by_cases hlen : lf.min_req_consequent_matches < words.length
      · rw [if_pos hlen] at hi
        refine ⟨fun _ => ?_, fun hle => by omega⟩
        by_cases hacc : lf.min_req_consequent_matches ≤ bm.2
        · rw [if_pos hacc] at hi
          rcases hbm with ⟨h1, _⟩ | ⟨n, h1, h2⟩
          · rw [h1] at hi; omega
          · rw [h1] at hi
            have hn : n = i := by omega
            rw [← hn, ← h2]
            exact hacc
        · rw [if_neg hacc] at hi; omega
      · rw [if_neg hlen] at hi
        refine ⟨fun hgt => by omega, fun _ => ?_⟩
        by_cases hacc : words.length = bm.2
        · rw [if_pos hacc] at hi
          rcases hbm with ⟨h1, _⟩ | ⟨n, h1, h2⟩
          · rw [h1] at hi; omega
          · rw [h1] at hi
            have hn : n = i := by omega
            rw [← hn, ← h2, ← hacc]
        · rw [if_neg hacc] at hi; omega

/-- Witness for C2: the empty store, a long accepted match, and a short
input accepted with a full score. -/
theorem find_best_matching_filter_index_correct_witness :
    LogFilters.new._find_best_matching_filter_index ["aaa"] = -1 ∧
    lfA._find_best_matching_filter_index ["aaa", "bbb", "ccc", "ddd"] = ((0 : Nat) : Int) ∧
    lfA.min_req_consequent_matches ≤
      lfA._count_consequent_matches ["aaa", "bbb", "ccc", "ddd"] 0 ∧
    lfA._find_best_matching_filter_index ["aaa"] = ((0 : Nat) : Int) ∧
    lfA._count_consequent_matches ["aaa"] 0 = ["aaa"].length :=
  ⟨(find_best_matching_filter_index_correct LogFilters.new ["aaa"]).1 (Or.inl rfl),
   by decide,
   ((find_best_matching_filter_index_correct lfA ["aaa", "bbb", "ccc", "ddd"]).2 0
     (by decide)).1 (by decide),
   by decide,
   ((find_best_matching_filter_index_correct lfA ["aaa"]).2 0 (by decide)).2 (by decide)⟩

/-- Claim C3: for an accepted match with first matching token index i and
first matching slot index j, the update mutates the state only when
i exceeds j, and then exactly by prepending the i - j leading tokens as
singleton-alternative slots (registering each in the word index for the
matched id); every other template is unchanged and no interior slot of
the matched template is touched. -/
theorem update_filter_frame (lf : LogFilters) (words : List String)
    (filter_index i j : Nat)
    (h : lf._get_first_matching_indexes words filter_index = ((i : Int), (j : Int))) :
    (i ≤ j → lf._update_filter words filter_index = lf) ∧
    (j < i →
      ∃ filter, lf.filters[filter_index]? = some filter ∧
        (lf._update_filter words filter_index).filters =
          lf.filters.set filter_index
            (((words.take (i - j)).map (fun word => [word])) ++ filter) ∧
        (lf._update_filter words filter_index).words_hash =
          ((words.take (i - j)).foldl
            (fun acc word => acc._update_hash word filter_index) lf).words_hash ∧
        ∀ k, k ≠ filter_index →
          (lf._update_filter words filter_index).filters[k]? = lf.filters[k]?) := by
  cases ho : lf.filters[filter_index]? with
  | none =>
    exfalso
    rw [LogFilters._get_first_matching_indexes,
      if_pos (Or.inr (by rw [ho]; rfl))] at h
    simp only [Prod.mk.injEq] at h
    omega
  | some filter =>
    constructor
    · intro hij
      simp only [LogFilters._update_filter, LogFilters._normalise_till_first_match, h]
      rw [if_pos (by omega : (0 : Int) ≤ ((i : Nat) : Int) ∧ (0 : Int) ≤ ((j : Nat) : Int))]
      rw [if_neg (by omega : ¬ ((0 : Int) < ((i : Nat) : Int) - ((j : Nat) : Int)))]
    · intro hji
      have htn : ((((i : Nat) : Int)) - (((j : Nat) : Int))).toNat = i - j := by omega
      have hupd : lf._update_filter words filter_index =
          { (words.take (i - j)).foldl
              (fun acc word => acc._update_hash word filter_index) lf with
            filters := lf.filters.set filter_index
              (((words.take (i - j)).map (fun word => [word])) ++ filter) } := by
        simp only [LogFilters._update_filter, LogFilters._normalise_till_first_match, h]
        rw [if_pos (by omega : (0 : Int) ≤ ((i : Nat) : Int) ∧ (0 : Int) ≤ ((j : Nat) : Int))]
        rw [if_pos (by omega : (0 : Int) < ((i : Nat) : Int) - ((j : Nat) : Int))]
        rw [htn]
        rw [foldl_update_hash_filters (words.take (i - j)) filter_index lf, ho]
      refine ⟨filter, rfl, ?_, ?_, ?_⟩
      · rw [hupd]
      · rw [hupd]
      · intro k hk
        rw [hupd]
        exact List.getElem?_set_ne (fun hh => hk hh.symm)

/-- Witness for C3: a two-token line whose second token matches the single
slot of the template, so one leading token is prepended. -/
theorem update_filter_frame_witness :
    ∃ filter, lfB.filters[(0 : Nat)]? = some filter ∧
      (lfB._update_filter ["aaa", "bbb"] 0).filters =
        lfB.filters.set 0 (((["aaa", "bbb"].take (1 - 0)).map (fun word => [word])) ++ filter) ∧
      (lfB._update_filter ["aaa", "bbb"] 0).words_hash =
        ((["aaa", "bbb"].take (1 - 0)).foldl
          (fun acc word => acc._update_hash word 0) lfB).words_hash ∧
      ∀ k, k ≠ 0 →
        (lfB._update_filter ["aaa", "bbb"] 0).filters[k]? = lfB.filters[k]? :=
  (update_filter_frame lfB ["aaa", "bbb"] 0 1 0 (by decide)).2 (by decide)

theorem contains_false_map_eq_not_all (p : Char → Bool) (l : List Char) :
    ((l.map p).contains false) = !(l.all p) := by
  induction l with
  | nil => rfl
  | cons c t ih =>
    simp only [List.map_cons, List.all_cons, List.contains_cons, ih]
    cases p c <;> simp

/-- Counterexample for C5 as stated: the program filters with
char::is_numeric, which is wider than the decimal-digit test of the
claim, so on the line consisting of the single character U+00BD (vulgar
fraction one half, category No) the learner drops the token while the
claimed decimal tokenizer keeps it. -/
theorem tokenize_not_decimal_spec :
    tokenize "½" = [] ∧ specTokenize "½" = ["½"] ∧
      ¬ (tokenize "½" = specTokenize "½") :=
  ⟨by decide, by decide, by decide⟩

/-- Amended C5: the token list the learner operates on is exactly the
substrings obtained by splitting at the twelve separator characters, with
empty substrings dropped and every substring consisting entirely of
Unicode-numeric characters (Rust char::is_numeric, categories Nd, Nl and
No) dropped; the empty string counts as all-numeric.  On lines containing
only ASCII characters this coincides with the original decimal-digit
reading. -/
theorem tokenize_matches_numeric_spec (log_line : String) :
    tokenize log_line = specTokenizeNumeric log_line := by
  unfold tokenize specTokenizeNumeric
  have hsep : isSeparatorChar = specIsSeparator := by
    funext c
    rfl
  rw [hsep]
  apply List.filter_congr
  intro word _
  have hnum : _is_word_only_numeric word = specNumericAll word := by
    unfold _is_word_only_numeric specNumericAll
    rw [contains_false_map_eq_not_all]
    cases word.data.all (fun c => charIsNumeric c) <;> rfl
  rw [hnum]
  have hlen : decide (0 < word.length) = decide (word.length ≠ 0) := by
    rcases Nat.eq_zero_or_pos word.length with hz | hp
    · simp [hz]
    · simp [hp, Nat.pos_iff_ne_zero.mp hp]
  rw [hlen]

/-- Counterexample for C10 as stated: on the shared state of lfA and oldA
(identical template store, word index and min_req_consequent_matches) and
the fully matching input, the current matcher accepts template 0 while the
old matcher rejects: the old scorer resets its consequent counter and only
updates its maximum on a mismatch, so the fully matching input scores 0
there. -/
theorem matchers_not_equivalent :
    oldA.line_filters = lfA.filters ∧
    oldA.words_hash = lfA.words_hash ∧
    oldA.min_req_consequent_matches = lfA.min_req_consequent_matches ∧
    oldA._find_best_matching_filter_index ["aaa", "bbb", "ccc", "ddd"] = -1 ∧
    lfA._find_best_matching_filter_index ["aaa", "bbb", "ccc", "ddd"] = 0 ∧
    ¬ (oldA._find_best_matching_filter_index ["aaa", "bbb", "ccc", "ddd"] =
        lfA._find_best_matching_filter_index ["aaa", "bbb", "ccc", "ddd"]) := by
  refine ⟨rfl, rfl, rfl, by decide, by decide, by decide⟩

/-- Amended C10: the two matchers agree on every common state whenever the
template store or the token list is empty (both return -1); on general
inputs they are not equivalent (see the counterexample). -/
theorem matchers_agree_on_trivial_inputs (fs : List (List (List String)))
    (wh : List (String × List Nat)) (minReq maxAllowed : Nat) (words : List String)
    (hcase : fs = [] ∨ words = []) :
    Old.LogFilters._find_best_matching_filter_index ⟨fs, wh, minReq⟩ words = -1 ∧
    LogFilters._find_best_matching_filter_index ⟨fs, wh, minReq, maxAllowed⟩ words = -1 := by
  constructor
  · rcases hcase with hfs | hws
    · subst hfs
      rw [Old.LogFilters._find_best_matching_filter_index, if_pos (by rfl)]
    · subst hws
      rw [Old.LogFilters._find_best_matching_filter_index]
      by_cases hfs : fs.length = 0
      · rw [if_pos hfs]
      · rw [if_neg hfs]
        have hcands :
            Old.LogFilters._get_line_filter_indexes_with_min_req_matches ⟨fs, wh, minReq⟩ [] =
              [] := rfl
        rw [hcands]
        rw [Old.bestLoop]
        simp
  · rcases hcase with hfs | hws
    · subst hfs
      rw [LogFilters._find_best_matching_filter_index, if_pos (Or.inl (by rfl))]
    · subst hws
      rw [LogFilters._find_best_matching_filter_index, if_pos (Or.inr (by rfl))]

/-- Witness for the amended C10 at a concrete trivial input. -/
theorem matchers_agree_on_trivial_inputs_witness :
    Old.LogFilters._find_best_matching_filter_index ⟨[], [], 3⟩ ["aaa"] = -1 ∧
    LogFilters._find_best_matching_filter_index ⟨[], [], 3, 1⟩ ["aaa"] = -1 :=
  matchers_agree_on_trivial_inputs [] [] 3 1 ["aaa"] (Or.inl rfl)

theorem getD_append_left (l l2 : List (List (List String))) (n : Nat)
    (h : n < l.length) : (l ++ l2).getD n [] = l.getD n [] := by
  rw [List.getD_eq_getElem?_getD, List.getD_eq_getElem?_getD, List.getElem?_append,
    if_pos h]

theorem normalise_cases (lf : LogFilters) (words : List String) (filter_index : Nat) :
    lf._normalise_till_first_match words filter_index = lf ∨
    ∃ (filter : List (List String)) (front : List String),
      lf.filters[filter_index]? = some filter ∧
      lf._normalise_till_first_match words filter_index =
        { front.foldl (fun acc word => acc._update_hash word filter_index) lf with
          filters := lf.filters.set filter_index
            ((front.map (fun word => [word])) ++ filter) } := by
  by_cases h1 : 0 ≤ (lf._get_first_matching_indexes words filter_index).1 ∧
      0 ≤ (lf._get_first_matching_indexes words filter_index).2
  case neg =>
    left
    rw [LogFilters._normalise_till_first_match, if_neg h1]
  case pos =>
    have hsome : ∃ filter, lf.filters[filter_index]? = some filter := by
      cases ho : lf.filters[filter_index]? with
      | none =>
        exfalso
        have hp : lf._get_first_matching_indexes words filter_index = (-1, -1) := by
          rw [LogFilters._get_first_matching_indexes, if_pos (Or.inr (by rw [ho]; rfl))]
        rw [hp] at h1
        exact absurd h1.1 (by omega)
      | some filter => exact ⟨filter, rfl⟩
    obtain ⟨filter, ho⟩ := hsome
    by_cases h2 : 0 < (lf._get_first_matching_indexes words filter_index).1 -
        (lf._get_first_matching_indexes words filter_index).2
    case neg =>
      left
      rw [LogFilters._normalise_till_first_match, if_pos h1, if_neg h2]
    case pos =>
      right
      refine ⟨filter,
        words.take ((lf._get_first_matching_indexes words filter_index).1 -
          (lf._get_first_matching_indexes words filter_index).2).toNat, ho, ?_⟩
      rw [LogFilters._normalise_till_first_match, if_pos h1, if_pos h2]
      dsimp only
      rw [foldl_update_hash_filters, ho]

theorem add_filter_filters_cases (lf : LogFilters) (words : List String) :
    (lf._add_filter words).filters = lf.filters ∨
    ∃ alts, (lf._add_filter words).filters = lf.filters ++ [alts] := by
  unfold LogFilters._add_filter
  by_cases h : 0 <
      (((words.filter (fun word => decide (0 < word.length))).map
        (fun word => [word]))).length
  · rw [if_pos h]
    right
    refine ⟨(words.filter (fun word => decide (0 < word.length))).map
      (fun word => [word]), ?_⟩
    show ((words.filter (fun word => decide (0 < word.length))).foldl
        (fun acc word => acc._update_hash word lf.filters.length) lf).filters ++ _ =
      lf.filters ++ _
    rw [foldl_update_hash_filters]
  · rw [if_neg h]
    show ((words.filter (fun word => decide (0 < word.length))).foldl
        (fun acc word => acc._update_hash word lf.filters.length) lf).filters =
        lf.filters ∨ _
    left
    rw [foldl_update_hash_filters]

theorem learn_line_step_mono (lf : LogFilters) (line : String) :
    lf.filters.length ≤ (lf.learn_line line).filters.length ∧
    ∀ id, id < lf.filters.length →
      ∃ pre, (lf.learn_line line).filters.getD id [] = pre ++ lf.filters.getD id [] := by
  unfold LogFilters.learn_line
  by_cases hm : 0 ≤ lf._find_best_matching_filter_index (tokenize line)
  · rw [if_pos hm]
    rw [LogFilters._update_filter]
    rcases normalise_cases lf (tokenize line)
        (lf._find_best_matching_filter_index (tokenize line)).toNat with
      heq | ⟨filter, front, ho, heq⟩
    · rw [heq]
      exact ⟨le_refl _, fun id _ => ⟨[], rfl⟩⟩
    · rw [heq]
      have hfi : (lf._find_best_matching_filter_index (tokenize line)).toNat <
          lf.filters.length := by
        by_contra hge
        rw [List.getElem?_eq_none (by omega)] at ho
        exact absurd ho (by simp)
      constructor
      · simp
      · intro id hid
        by_cases hidf : id = (lf._find_best_matching_filter_index (tokenize line)).toNat
        · subst hidf
          refine ⟨front.map (fun word => [word]), ?_⟩
          show (lf.filters.set _ _).getD _ [] = _
          rw [List.getD_eq_getElem?_getD, List.getElem?_set_self hid,
            List.getD_eq_getElem?_getD, ho]
          rfl
        · refine ⟨[], ?_⟩
          show (lf.filters.set _ _).getD _ [] = _
          rw [List.getD_eq_getElem?_getD,
            List.getElem?_set_ne (fun hh => hidf hh.symm),
            List.getD_eq_getElem?_getD]
          rfl
  · rw [if_neg hm]
    rcases add_filter_filters_cases lf (tokenize line) with heq | ⟨alts, heq⟩
    · rw [heq]
      exact ⟨le_refl _, fun id _ => ⟨[], rfl⟩⟩
    · rw [heq]
      constructor
      · simp
      · intro id hid
        exact ⟨[], by rw [getD_append_left lf.filters [alts] id hid]; rfl⟩

/-- Claim C6: across any sequence of learn_line calls the number of
templates never decreases, and every existing template only ever grows by
prepending slots: its content after the calls is a prepended block
followed by its old slot sequence, so its slot count never decreases. -/
theorem learn_lines_monotone (lines : List String) : ∀ lf : LogFilters,
    lf.filters.length ≤ (lines.foldl LogFilters.learn_line lf).filters.length ∧
    ∀ id, id < lf.filters.length →
      (∃ pre, (lines.foldl LogFilters.learn_line lf).filters.getD id [] =
        pre ++ lf.filters.getD id []) ∧
      (lf.filters.getD id []).length ≤
        ((lines.foldl LogFilters.learn_line lf).filters.getD id []).length := by
  induction lines with
  | nil =>
    intro lf
    exact ⟨le_refl _, fun id _ => ⟨⟨[], rfl⟩, le_refl _⟩⟩
  | cons line rest ih =>
    intro lf
    rw [List.foldl_cons]
    obtain ⟨hlen1, hstep⟩ := learn_line_step_mono lf line
    obtain ⟨hlen2, hrest⟩ := ih (lf.learn_line line)
    refine ⟨le_trans hlen1 hlen2, fun id hid => ?_⟩
    obtain ⟨pre1, hpre1⟩ := hstep id hid
    obtain ⟨⟨pre2, hpre2⟩, _⟩ := hrest id (lt_of_lt_of_le hid hlen1)
    refine ⟨⟨pre2 ++ pre1, by rw [hpre2, hpre1, List.append_assoc]⟩, ?_⟩
    rw [hpre2, hpre1]
    simp
    omega

/-- Witness for C6: learning one fresh line on top of a one-template
state keeps template 0 intact. -/
theorem learn_lines_monotone_witness :
    lfB.filters.length ≤ ((["ccc"].foldl LogFilters.learn_line lfB).filters).length ∧
    (∃ pre, (["ccc"].foldl LogFilters.learn_line lfB).filters.getD 0 [] =
      pre ++ lfB.filters.getD 0 []) ∧
    (lfB.filters.getD 0 []).length ≤
      ((["ccc"].foldl LogFilters.learn_line lfB).filters.getD 0 []).length :=
  ⟨(learn_lines_monotone ["ccc"] lfB).1,
   ((learn_lines_monotone ["ccc"] lfB).2 0 (by decide)).1,
   ((learn_lines_monotone ["ccc"] lfB).2 0 (by decide)).2⟩

theorem mem_sort_append (v : List Nat) (fi id : Nat) :
    id ∈ List.insertionSort (· ≤ ·) (v ++ [fi]) ↔ id ∈ v ∨ id = fi := by
  rw [(List.perm_insertionSort (· ≤ ·) (v ++ [fi])).mem_iff]
  simp

theorem hashHasIndex_update_hash (lf : LogFilters) (w0 : String) (fi : Nat)
    (w : String) (id : Nat) :
    hashHasIndex (lf._update_hash w0 fi).words_hash w id = true ↔
      (hashHasIndex lf.words_hash w id = true ∨ (w = w0 ∧ id = fi)) := by
  by_cases hw : w = w0
  · subst hw
    unfold hashHasIndex
    rw [lookup_update_hash_self]
    cases ho : hashLookup lf.words_hash w with
    | none =>
      simp
    | some u =>
      by_cases hc : u.contains fi
      · simp only [Option.getD_some, if_pos hc]
        have hfm : fi ∈ u := by simpa using hc
        simp only [List.contains_eq_any_beq]
        constructor
        · intro h
          exact Or.inl h
        · rintro (h | ⟨-, rfl⟩)
          · exact h
          · simpa using hfm
      · simp only [Option.getD_some, if_neg hc]
        constructor
        · intro h
          have : id ∈ List.insertionSort (· ≤ ·) (u ++ [fi]) := by simpa using h
          rcases (mem_sort_append u fi id).mp this with h1 | h1
          · left; simpa using h1
          · right; exact ⟨trivial, h1⟩
        · intro h
          have : id ∈ List.insertionSort (· ≤ ·) (u ++ [fi]) := by
            rw [mem_sort_append]
            rcases h with h1 | ⟨-, h1⟩
            · left; simpa using h1
            · right; exact h1
          simpa using this
  · unfold hashHasIndex
    have : hashLookup (lf._update_hash w0 fi).words_hash w = hashLookup lf.words_hash w := by
      rw [LogFilters._update_hash]
      exact hashLookup_hashInsert_ne _ _ _ _ hw
    rw [this]
    constructor
    · exact fun h => Or.inl h
    · rintro (h | ⟨h1, -⟩)
      · exact h
      · exact absurd h1 hw

theorem hashHasIndex_foldl_update_hash (ws : List String) (fi : Nat) :
    ∀ (lf : LogFilters) (w : String) (id : Nat),
      hashHasIndex
          ((ws.foldl (fun acc word => acc._update_hash word fi) lf).words_hash) w id = true ↔
        (hashHasIndex lf.words_hash w id = true ∨ (w ∈ ws ∧ id = fi)) := by
  induction ws with
  | nil =>
    intro lf w id
    simp
  | cons w0 rest ih =>
    intro lf w id
    rw [List.foldl_cons, ih, hashHasIndex_update_hash]
    constructor
    · rintro ((h | ⟨h1, h2⟩) | ⟨h1, h2⟩)
      · exact Or.inl h
      · exact Or.inr ⟨by simp [h1], h2⟩
      · exact Or.inr ⟨by simp [h1], h2⟩
    · rintro (h | ⟨h1, h2⟩)
      · exact Or.inl (Or.inl h)
      · rcases List.mem_cons.mp h1 with h1 | h1
        · exact Or.inl (Or.inr ⟨h1, h2⟩)
        · exact Or.inr ⟨h1, h2⟩

theorem any_map_singleton_mem (front : List String) (w : String) :
    ((front.map (fun word => [word])).any
      (fun word_alternatives => word_alternatives.contains w)) = true ↔ w ∈ front := by
  induction front with
  | nil => simp
  | cons a t ih =>
    simp only [List.map_cons, List.any_cons, Bool.or_eq_true, ih]
    constructor
    · rintro (h | h)
      · have hm : w ∈ [a] := by simpa using h
        simp only [List.mem_singleton] at hm
        simp [hm]
      · exact List.mem_cons_of_mem a h
    · intro h
      rcases List.mem_cons.mp h with h | h
      · left; simp [h]
      · right; exact h

theorem add_filter_eq (lf : LogFilters) (words : List String) :
    lf._add_filter words =
      (if 0 < (words.filter (fun word => decide (0 < word.length))).length then
        { ((words.filter (fun word => decide (0 < word.length))).foldl
            (fun acc word => acc._update_hash word lf.filters.length) lf) with
          filters := lf.filters ++
            [(words.filter (fun word => decide (0 < word.length))).map
              (fun word => [word])] }
      else lf) := by
  unfold LogFilters._add_filter
  by_cases h : 0 <
      ((words.filter (fun word => decide (0 < word.length))).map (fun word => [word])).length
  · rw [if_pos h, if_pos (by simpa using h)]
    rw [foldl_update_hash_filters]
  · rw [if_neg h, if_neg (by simpa using h)]
    have h0 : ((words.filter (fun word => decide (0 < word.length))).map
        (fun word => [word])).length = 0 := by omega
    rw [List.length_map] at h0
    rw [List.length_eq_zero.mp h0]
    rfl

theorem is_word_in_filter_iff (lf : LogFilters) (w : String) (id : Nat) :
    lf._is_word_in_filter w id = true ↔
      ∃ filter, lf.filters[id]? = some filter ∧
        filter.any (fun word_alternatives => word_alternatives.contains w) = true := by
  unfold LogFilters._is_word_in_filter
  cases ho : lf.filters[id]? with
  | none => simp
  | some filter => simp

theorem indexConsistent_add_filter (lf : LogFilters) (words : List String)
    (hc : indexConsistent lf) : indexConsistent (lf._add_filter words) := by
  rw [add_filter_eq]
  by_cases h : 0 < (words.filter (fun word => decide (0 < word.length))).length
  case neg => rw [if_neg h]; exact hc
  case pos =>
    rw [if_pos h]
    intro w id
    set kept := words.filter (fun word => decide (0 < word.length)) with hkept
    rw [Bool.eq_iff_iff]
    constructor
    · intro hl
      have hl1 := (hashHasIndex_foldl_update_hash kept lf.filters.length lf w id).mp hl
      apply (is_word_in_filter_iff _ w id).mpr
      rcases hl1 with hl1 | ⟨hw, hid⟩
      · obtain ⟨filter, hfo, hany⟩ := (is_word_in_filter_iff lf w id).mp ((hc w id) ▸ hl1)
        have hidlt : id < lf.filters.length := by
          by_contra hge
          rw [List.getElem?_eq_none (by omega)] at hfo
          exact absurd hfo (by simp)
        refine ⟨filter, ?_, hany⟩
        show (lf.filters ++ [kept.map (fun word => [word])])[id]? = some filter
        rw [List.getElem?_append, if_pos hidlt]
        exact hfo
      · subst hid
        refine ⟨kept.map (fun word => [word]), ?_,
          (any_map_singleton_mem kept w).mpr hw⟩
        show (lf.filters ++ [kept.map (fun word => [word])])[lf.filters.length]? = _
        rw [List.getElem?_concat_length]
    · intro hr
      obtain ⟨filter, hfo, hany⟩ := (is_word_in_filter_iff _ w id).mp hr
      have hfo2 : (lf.filters ++ [kept.map (fun word => [word])])[id]? = some filter := hfo
      apply (hashHasIndex_foldl_update_hash kept lf.filters.length lf w id).mpr
      rcases Nat.lt_trichotomy id lf.filters.length with hid | hid | hid
      · left
        rw [hc w id]
        apply (is_word_in_filter_iff lf w id).mpr
        rw [List.getElem?_append, if_pos hid] at hfo2
        exact ⟨filter, hfo2, hany⟩
      · right
        subst hid
        rw [List.getElem?_concat_length] at hfo2
        have hfilter : filter = kept.map (fun word => [word]) := by
          injection hfo2 with hh
          exact hh.symm
        subst hfilter
        exact ⟨(any_map_singleton_mem kept w).mp hany, rfl⟩
      · exfalso
        rw [List.getElem?_eq_none (by simp; omega)] at hfo2
        exact absurd hfo2 (by simp)

theorem indexConsistent_update_filter (lf : LogFilters) (words : List String)
    (filter_index : Nat) (hc : indexConsistent lf) :
    indexConsistent (lf._update_filter words filter_index) := by
  rw [LogFilters._update_filter]
  rcases normalise_cases lf words filter_index with heq | ⟨filter, front, ho, heq⟩
  · rw [heq]; exact hc
  · rw [heq]
    have hfi : filter_index < lf.filters.length := by
      by_contra hge
      rw [List.getElem?_eq_none (by omega)] at ho
      exact absurd ho (by simp)
    intro w id
    rw [Bool.eq_iff_iff]
    constructor
    · intro hl
      have hl1 := (hashHasIndex_foldl_update_hash front filter_index lf w id).mp hl
      apply (is_word_in_filter_iff _ w id).mpr
      by_cases hid : id = filter_index
      · subst hid
        refine ⟨(front.map (fun word => [word])) ++ filter, ?_, ?_⟩
        · show (lf.filters.set id ((front.map (fun word => [word])) ++ filter))[id]? = _
          rw [List.getElem?_set_self hfi]
        · rw [List.any_append, Bool.or_eq_true]
          rcases hl1 with hl1 | ⟨hw, -⟩
          · right
            obtain ⟨filter2, hfo2, hany2⟩ :=
              (is_word_in_filter_iff lf w id).mp ((hc w id) ▸ hl1)
            rw [ho] at hfo2
            injection hfo2 with hh
            rw [hh]
            exact hany2
          · left
            exact (any_map_singleton_mem front w).mpr hw
      · rcases hl1 with hl1 | ⟨-, hid2⟩
        · obtain ⟨filter2, hfo2, hany2⟩ :=
            (is_word_in_filter_iff lf w id).mp ((hc w id) ▸ hl1)
          refine ⟨filter2, ?_, hany2⟩
          show (lf.filters.set filter_index ((front.map (fun word => [word])) ++ filter))[id]? =
            some filter2
          rw [List.getElem?_set_ne (fun hh => hid hh.symm)]
          exact hfo2
        · exact absurd hid2 hid
    · intro hr
      obtain ⟨filter2, hfo2, hany2⟩ := (is_word_in_filter_iff _ w id).mp hr
      have hfo3 : (lf.filters.set filter_index
          ((front.map (fun word => [word])) ++ filter))[id]? = some filter2 := hfo2
      apply (hashHasIndex_foldl_update_hash front filter_index lf w id).mpr
      by_cases hid : id = filter_index
      · subst hid
        rw [List.getElem?_set_self hfi] at hfo3
        injection hfo3 with hh
        subst hh
        rw [List.any_append, Bool.or_eq_true] at hany2
        rcases hany2 with hany2 | hany2
        · exact Or.inr ⟨(any_map_singleton_mem front w).mp hany2, rfl⟩
        · left
          rw [hc w id]
          exact (is_word_in_filter_iff lf w id).mpr ⟨filter, ho, hany2⟩
      · left
        rw [List.getElem?_set_ne (fun hh => hid hh.symm)] at hfo3
        rw [hc w id]
        exact (is_word_in_filter_iff lf w id).mpr ⟨filter2, hfo3, hany2⟩

theorem indexConsistent_learn_line (lf : LogFilters) (line : String)
    (hc : indexConsistent lf) : indexConsistent (lf.learn_line line) := by
  unfold LogFilters.learn_line
  by_cases hm : 0 ≤ lf._find_best_matching_filter_index (tokenize line)
  · rw [if_pos hm]
    exact indexConsistent_update_filter lf (tokenize line) _ hc
  · rw [if_neg hm]
    exact indexConsistent_add_filter lf (tokenize line) hc

/-- Claim C4: after any sequence of learn_line calls from the empty state,
the word index contains a template id in a token entry exactly when the
token appears in some slot alternative set of that template. -/
theorem word_index_exact_inverse (lines : List String) :
    indexConsistent (lines.foldl LogFilters.learn_line LogFilters.new) := by
  have hbase : indexConsistent LogFilters.new := fun w id => rfl
  have hstep : ∀ (ls : List String) (lf : LogFilters), indexConsistent lf →
      indexConsistent (ls.foldl LogFilters.learn_line lf) := by
    intro ls
    induction ls with
    | nil => exact fun lf hc => hc
    | cons l rest ih =>
      intro lf hc
      rw [List.foldl_cons]
      exact ih _ (indexConsistent_learn_line lf l hc)
  exact hstep lines LogFilters.new hbase
